import Mathlib

/-!
Verification of the multi-factor trading pipeline in `app.py`.

The pipeline is modelled stage by stage, faithfully to the source:
cleaning of raw text cells, rolling factor computation, winsorization,
z-scoring, composite scoring, percentile-threshold signals, lagged
backtesting and performance metrics.  The floating NaN sentinel of the
source is modelled by `Option`: `none` stands for an undefined (NaN)
cell, and every comparison or arithmetic operation involving `none`
behaves as the corresponding IEEE operation on NaN does in the source
(comparisons are false, arithmetic propagates the undefined value).
Numbers are exact rationals (and reals where a square root or a real
power is taken), so floating rounding is abstracted away.
-/

namespace MFTApp

/-- Characters removed from a raw numeric cell before parsing: the comma
thousands separator and the two currency glyphs that the chained
`str.replace` calls of the source delete. -/
def isStripped (c : Char) : Bool := c = ',' || c = '₹' || c = '$'

/-- Remove every occurrence of the separator and currency characters from a
raw cell, as the chained replace calls in the source do. -/
def stripSeps (cs : List Char) : List Char := cs.filter (fun c => !isStripped c)

/-- Numeric value of a digit string, most significant digit first. -/
def natOfDigits (cs : List Char) : ℕ := cs.foldl (fun a c => 10 * a + (c.toNat - 48)) 0

/-- A successfully parsed numeric cell: a finite rational, or one of the
two IEEE infinities that the numeric coercion of the source produces from
infinity text.  A NaN result is represented as missing (`none`), per the
file-level convention, which matches the source because a NaN cell and a
missing cell behave identically from the row-drop on. -/
inductive PValue : Type
  | fin (q : ℚ)
  | posInf
  | negInf
deriving DecidableEq

/-- Finiteness of a parsed cell value. -/
def PValue.isFinite : PValue → Bool
  | PValue.fin _ => true
  | _ => false

/-- Negation of a parsed cell value, for a leading minus sign. -/
def PValue.neg : PValue → PValue
  | PValue.fin q => PValue.fin (-q)
  | PValue.posInf => PValue.negInf
  | PValue.negInf => PValue.posInf

/-- Strip surrounding whitespace, as the numeric coercion of the source
tolerates around a cell. -/
def trimSpaces (cs : List Char) : List Char :=
  ((cs.dropWhile Char.isWhitespace).reverse.dropWhile Char.isWhitespace).reverse

/-- Lower-cased characters, for the case-insensitive special spellings. -/
def lowerChars (cs : List Char) : List Char := cs.map Char.toLower

/-- The infinity spellings the numeric coercion of the source accepts. -/
def isInfWord (cs : List Char) : Bool :=
  lowerChars cs = ['i', 'n', 'f'] ||
    lowerChars cs = ['i', 'n', 'f', 'i', 'n', 'i', 't', 'y']

/-- The NaN spelling the numeric coercion of the source accepts; it parses
to NaN, which is missing from the row-drop on. -/
def isNanWord (cs : List Char) : Bool := lowerChars cs = ['n', 'a', 'n']

/-- Parse an unsigned decimal mantissa: digits, optionally split by a
single dot, with at least one digit present. -/
def parseMantissa (cs : List Char) : Option ℚ :=
  let intPart := cs.takeWhile (fun c => c ≠ '.')
  match cs.dropWhile (fun c => c ≠ '.') with
  | [] =>
      if intPart ≠ [] ∧ intPart.all Char.isDigit then some (natOfDigits intPart) else none
  | _ :: frac =>
      if (intPart ≠ [] ∨ frac ≠ []) ∧ intPart.all Char.isDigit ∧ frac.all Char.isDigit then
        some ((natOfDigits intPart : ℚ) + (natOfDigits frac : ℚ) / 10 ^ frac.length)
      else none

/-- Parse an optionally signed exponent of scientific notation. -/
def parseExponent (cs : List Char) : Option ℤ :=
  match cs with
  | '-' :: rest =>
      if rest ≠ [] ∧ rest.all Char.isDigit then some (-(natOfDigits rest : ℤ)) else none
  | '+' :: rest =>
      if rest ≠ [] ∧ rest.all Char.isDigit then some ((natOfDigits rest : ℤ)) else none
  | rest =>
      if rest ≠ [] ∧ rest.all Char.isDigit then some ((natOfDigits rest : ℤ)) else none

/-- Parse an unsigned number: a decimal mantissa with an optional
scientific-notation exponent marked by e or E. -/
def parseUnsignedNum (cs : List Char) : Option ℚ :=
  let mant := cs.takeWhile (fun c => c ≠ 'e' ∧ c ≠ 'E')
  match cs.dropWhile (fun c => c ≠ 'e' ∧ c ≠ 'E') with
  | [] => parseMantissa mant
  | _ :: expPart => do
      let m ← parseMantissa mant
      let e ← parseExponent expPart
      pure (m * 10 ^ e)

/-- Parse an unsigned cell body: the NaN spelling becomes missing, an
infinity spelling becomes the infinite value, and anything else is read
as a decimal or scientific number or becomes missing. -/
def parseUnsignedCell (cs : List Char) : Option PValue :=
  if isNanWord cs then none
  else if isInfWord cs then some PValue.posInf
  else (parseUnsignedNum cs).map PValue.fin

/-- Parse a numeric cell as the coercing numeric conversion of the source
does: trim surrounding whitespace, accept an optional sign, decimal and
scientific notation, and the infinity and NaN spellings; everything
unparsable (and NaN) becomes missing, while an infinity stays a value. -/
def parseDecimal (cs : List Char) : Option PValue :=
  match trimSpaces cs with
  | '-' :: rest => (parseUnsignedCell rest).map PValue.neg
  | '+' :: rest => parseUnsignedCell rest
  | rest => parseUnsignedCell rest

/-- Full treatment of one raw cell: strip the separator and currency
characters, then parse as a number. -/
def parseCell (s : String) : Option PValue := parseDecimal (stripSeps s.toList)

/-- The Cleaner: parse the price and volume columns cell by cell, then drop
every row in which either parse came out missing, exactly as the
column-wise cleaning loop followed by the row-wise `dropna` does in the
source.  Every surviving value is a non-missing number, but it can be one
of the infinities, which the row drop of the source does not remove. -/
def cleanSeries (raw : List (String × String)) : List (PValue × PValue) :=
  let pCol := raw.map (fun r => parseCell r.1)
  let vCol := raw.map (fun r => parseCell r.2)
  (pCol.zip vCol).filterMap (fun ab =>
    match ab with
    | (some p, some v) => some (p, v)
    | _ => none)

/-- C7 (amended): the Cleaner is a total function: each cell is stripped
of the comma and the two currency glyphs and parsed as a decimal or
scientific number with surrounding whitespace tolerated; NaN text and
unparsable text become missing; every row with any missing field is
removed entirely (no imputation), so the output is exactly the row-wise
filter of the rows both of whose cells parse, and every surviving value
is non-missing — but infinity text parses to a non-finite value that
survives the row drop, so a cleaned value need not be finite. -/
theorem cleaner_row_filter_characterization (raw : List (String × String)) :
    cleanSeries raw = raw.filterMap (fun r =>
      match parseCell r.1, parseCell r.2 with
      | some p, some v => some (p, v)
      | _, _ => none) ∧
    ∀ pv ∈ cleanSeries raw, ∃ r ∈ raw, parseCell r.1 = some pv.1 ∧ parseCell r.2 = some pv.2 := by
  have hmain : cleanSeries raw = raw.filterMap (fun r =>
      match parseCell r.1, parseCell r.2 with
      | some p, some v => some (p, v)
      | _, _ => none) := by
    induction raw with
    | nil => rfl
    | cons r t ih =>
        simp only [cleanSeries, List.map_cons, List.zip_cons_cons, List.filterMap_cons] at ih ⊢
        cases hp : parseCell r.1 <;> cases hv : parseCell r.2 <;> simp_all
  refine ⟨hmain, ?_⟩
  intro pv hpv
  rw [hmain] at hpv
  rcases List.mem_filterMap.mp hpv with ⟨r, hr, hf⟩
  refine ⟨r, hr, ?_⟩
  cases hp : parseCell r.1 <;> cases hv : parseCell r.2 <;> simp [hp, hv] at hf
  subst hf
  exact ⟨by simp [hp], by simp [hv]⟩

/-- C7 counterexample: the price text inf parses to the positive infinite
value, which is not missing, so the row survives the drop and a
non-finite price leaks past the Cleaner, refuting the finiteness clause
of the claim. -/
theorem cleaner_inf_leak_cex :
    cleanSeries [("inf", "1000")] = [(PValue.posInf, PValue.fin 1000)] ∧
    PValue.isFinite PValue.posInf = false := by
  constructor
  · decide
  · rfl

/-- Witness for C7 (amended) at a concrete input: a decorated price, a
decorated volume, an unparsable row, and a scientific-notation volume. -/
theorem cleaner_row_filter_characterization_witness :
    cleanSeries [("1,234", "₹50"), ("abc", "7")] =
      [(PValue.fin 1234, PValue.fin 50)] ∧
    ∀ pv ∈ cleanSeries [("1,234", "₹50"), ("abc", "7")],
      ∃ r ∈ [("1,234", "₹50"), ("abc", "7")],
        parseCell r.1 = some pv.1 ∧ parseCell r.2 = some pv.2 := by
  have h := cleaner_row_filter_characterization [("1,234", "₹50"), ("abc", "7")]
  refine ⟨?_, h.2⟩
  rw [h.1]
  decide

/-- Mean of a list of values, total with the junk value 0 on the empty
list (the source never takes a mean of an empty column). -/
def listMean {α : Type} [Field α] (xs : List α) : α := xs.sum / xs.length

/-- Sample variance (denominator `n - 1`), the pandas default degrees of
freedom used by every `std` call of the source. -/
def sampleVar {α : Type} [Field α] (xs : List α) : α :=
  ((xs.map (fun x => (x - listMean xs) ^ 2)).sum) / ((xs.length : α) - 1)

/-- Sample standard deviation over the reals. -/
noncomputable def sampleStd (xs : List ℝ) : ℝ := Real.sqrt (sampleVar xs)

/-- Percent change over `k` periods at position `i` of a column:
`x[i] / x[i-k] - 1`, undefined for the first `k` positions and outside the
column; a zero denominator also yields an undefined entry (in the source
this is the NaN produced when both operands of the division vanish — the
only zero-denominator shape the claims exercise). -/
def pctChangeAt (xs : List ℚ) (k i : ℕ) : Option ℚ :=
  if k ≤ i ∧ i < xs.length ∧ xs.getD (i - k) 0 ≠ 0 then
    some (xs.getD i 0 / xs.getD (i - k) 0 - 1)
  else none

/-- Momentum column: 20-period percent change of the price. -/
def momentumAt (ps : List ℚ) (i : ℕ) : Option ℚ := pctChangeAt ps 20 i

/-- Returns column: 1-period percent change of the price. -/
def returnsAt (ps : List ℚ) (i : ℕ) : Option ℚ := pctChangeAt ps 1 i

/-- VolumeFactor column: 20-period percent change of the volume. -/
def volumeFactorAt (vs : List ℚ) (i : ℕ) : Option ℚ := pctChangeAt vs 20 i

/-- The 20-entry trailing window of the Returns column ending at `i`, the
window over which the rolling standard deviation of the source runs. -/
def volWindow (ps : List ℚ) (i : ℕ) : List (Option ℚ) :=
  (List.range' (i - 19) 20).map (fun k => returnsAt ps k)

/-- Definedness of the rolling standard deviation at `i`: the position is
inside the column and all 20 trailing returns are defined (the rolling
window of the source requires 20 non-missing observations). -/
def volDefined (ps : List ℚ) (i : ℕ) : Bool :=
  decide (i < ps.length) && (volWindow ps i).all Option.isSome

/-- Volatility column: the reciprocal of the 20-period rolling sample
standard deviation of Returns plus the epsilon 1e-9, undefined while the
rolling window is not full. -/
noncomputable def volatilityAt (ps : List ℚ) (i : ℕ) : Option ℝ :=
  if volDefined ps i then
    some (1 / (sampleStd ((volWindow ps i).map (fun o => ((o.getD 0 : ℚ) : ℝ))) + 1e-9))
  else none

/-- Row indices of the cleaned series that survive the factor-stage
`dropna`: rows where all four factor columns are defined. -/
noncomputable def keptIndices (ps vs : List ℚ) : List ℕ :=
  (List.range ps.length).filter (fun i =>
    (momentumAt ps i).isSome && (returnsAt ps i).isSome &&
    (volatilityAt ps i).isSome && (volumeFactorAt vs i).isSome)

theorem volatilityAt_isSome (ps : List ℚ) (i : ℕ) :
    (volatilityAt ps i).isSome = volDefined ps i := by
  rw [volatilityAt]
  cases h : volDefined ps i <;> simp [h]

theorem keptIndices_eq (ps vs : List ℚ) :
    keptIndices ps vs = (List.range ps.length).filter (fun i =>
      (momentumAt ps i).isSome && (returnsAt ps i).isSome &&
      volDefined ps i && (volumeFactorAt vs i).isSome) := by
  unfold keptIndices
  congr 1
  funext i
  rw [volatilityAt_isSome]

theorem getD_pos_of_forall_pos (xs : List ℚ) (hpos : ∀ x ∈ xs, 0 < x) (j : ℕ)
    (hj : j < xs.length) : 0 < xs.getD j 0 := by
  rw [List.getD_eq_getElem xs 0 hj]
  exact hpos _ (List.getElem_mem hj)

theorem pctChangeAt_isSome_of_pos (xs : List ℚ) (k i : ℕ) (hpos : ∀ x ∈ xs, 0 < x)
    (hk : k ≤ i) (hi : i < xs.length) : (pctChangeAt xs k i).isSome := by
  have hd : 0 < xs.getD (i - k) 0 :=
    getD_pos_of_forall_pos xs hpos _ (lt_of_le_of_lt (Nat.sub_le i k) hi)
  have hcond : k ≤ i ∧ i < xs.length ∧ xs.getD (i - k) 0 ≠ 0 := ⟨hk, hi, ne_of_gt hd⟩
  simp only [pctChangeAt]
  rw [if_pos hcond]
  rfl

theorem pctChangeAt_eq_none_of_lt (xs : List ℚ) (k i : ℕ) (h : i < k) :
    pctChangeAt xs k i = none := by
  have : ¬ k ≤ i := Nat.not_le.mpr h
  simp [pctChangeAt, this]

theorem returnsAt_zero (ps : List ℚ) : returnsAt ps 0 = none :=
  pctChangeAt_eq_none_of_lt ps 1 0 Nat.one_pos

theorem volDefined_false_of_lt (ps : List ℚ) (i : ℕ) (h : i < 20) :
    volDefined ps i = false := by
  have h0 : (0 : ℕ) ∈ List.range' (i - 19) 20 := by
    have : i - 19 = 0 := Nat.sub_eq_zero_of_le (by omega)
    rw [this]
    simp
  have hmem : returnsAt ps 0 ∈ volWindow ps i := List.mem_map_of_mem _ h0
  have hall : (volWindow ps i).all Option.isSome = false := by
    refine List.all_eq_false.mpr ?_
    exact ⟨returnsAt ps 0, hmem, by simp [returnsAt_zero]⟩
  rw [volDefined, hall, Bool.and_false]

theorem volatilityAt_eq_none_of_lt (ps : List ℚ) (i : ℕ) (h : i < 20) :
    volatilityAt ps i = none := by
  rw [volatilityAt, volDefined_false_of_lt ps i h]
  simp

theorem volDefined_true_of_pos (ps : List ℚ) (i : ℕ) (hpos : ∀ x ∈ ps, 0 < x)
    (h20 : 20 ≤ i) (hi : i < ps.length) : volDefined ps i = true := by
  rw [volDefined]
  simp only [Bool.and_eq_true]
  refine ⟨by simpa using hi, ?_⟩
  refine List.all_eq_true.mpr ?_
  intro o ho
  rcases List.mem_map.mp ho with ⟨k, hk, rfl⟩
  rcases List.mem_range'_1.mp hk with ⟨hk1, hk2⟩
  have hk1' : 1 ≤ k := by omega
  have hk2' : k < ps.length := by omega
  exact pctChangeAt_isSome_of_pos ps 1 k hpos hk1' hk2'

theorem range_filter_ge (n : ℕ) :
    (List.range n).filter (fun i => decide (20 ≤ i)) = (List.range n).drop 20 := by
  rcases Nat.le_total n 20 with hn | hn
  · have h1 : (List.range n).filter (fun i => decide (20 ≤ i)) = [] := by
      refine List.filter_eq_nil_iff.mpr ?_
      intro a ha
      have := List.mem_range.mp ha
      simp
      omega
    have h2 : (List.range n).drop 20 = [] := by
      refine List.drop_eq_nil_of_le ?_
      simpa using hn
    rw [h1, h2]
  · obtain ⟨m, rfl⟩ : ∃ m, n = 20 + m := ⟨n - 20, by omega⟩
    rw [List.range_add, List.filter_append, List.drop_left' (by simp)]
    have h1 : (List.range 20).filter (fun i => decide (20 ≤ i)) = [] := by
      refine List.filter_eq_nil_iff.mpr ?_
      intro a ha
      have := List.mem_range.mp ha
      simp
      omega
    have h2 : ((List.range m).map (20 + ·)).filter (fun i => decide (20 ≤ i)) =
        (List.range m).map (20 + ·) := by
      refine List.filter_eq_self.mpr ?_
      intro a ha
      rcases List.mem_map.mp ha with ⟨k, _, rfl⟩
      simp
    rw [h1, h2, List.nil_append]

/-- C4 (amended): for every cleaned series with positive prices and
positive volumes, Momentum, VolumeFactor and the 20-period Volatility are
undefined for every row within the first 20 positions, Returns is
undefined exactly at position 0 (it is defined from position 1 on), and
the rows surviving the factor-stage `dropna` are exactly the contiguous
suffix of the cleaned series starting at position 20. -/
theorem factor_warmup_and_suffix (ps vs : List ℚ) (hlen : vs.length = ps.length)
    (hp : ∀ x ∈ ps, 0 < x) (hv : ∀ x ∈ vs, 0 < x) :
    (∀ i < 20, momentumAt ps i = none) ∧
    (∀ i < 20, volumeFactorAt vs i = none) ∧
    (∀ i < 20, volatilityAt ps i = none) ∧
    returnsAt ps 0 = none ∧
    (∀ i, 1 ≤ i → i < ps.length → (returnsAt ps i).isSome) ∧
    keptIndices ps vs = (List.range ps.length).drop 20 := by
  refine ⟨fun i hi => pctChangeAt_eq_none_of_lt ps 20 i hi,
    fun i hi => pctChangeAt_eq_none_of_lt vs 20 i hi,
    fun i hi => volatilityAt_eq_none_of_lt ps i hi,
    returnsAt_zero ps,
    fun i h1 h2 => pctChangeAt_isSome_of_pos ps 1 i hp h1 h2, ?_⟩
  rw [keptIndices_eq, ← range_filter_ge]
  refine List.filter_congr ?_
  intro i hi
  have hin : i < ps.length := List.mem_range.mp hi
  rcases Nat.lt_or_ge i 20 with h20 | h20
  · have hm : momentumAt ps i = none := pctChangeAt_eq_none_of_lt ps 20 i h20
    simp [hm]
    omega
  · have hm : (momentumAt ps i).isSome := pctChangeAt_isSome_of_pos ps 20 i hp h20 hin
    have hr : (returnsAt ps i).isSome := pctChangeAt_isSome_of_pos ps 1 i hp (by omega) hin
    have hvol : volDefined ps i = true := volDefined_true_of_pos ps i hp h20 hin
    have hvf : (volumeFactorAt vs i).isSome :=
      pctChangeAt_isSome_of_pos vs 20 i hv h20 (by omega)
    simp [hm, hr, hvol, hvf]
    omega

/-- Witness for C4 (amended) on a concrete 21-row constant series. -/
theorem factor_warmup_and_suffix_witness :
    (∀ i < 20, momentumAt (List.replicate 21 (1 : ℚ)) i = none) ∧
    (∀ i < 20, volumeFactorAt (List.replicate 21 (2 : ℚ)) i = none) ∧
    (∀ i < 20, volatilityAt (List.replicate 21 (1 : ℚ)) i = none) ∧
    returnsAt (List.replicate 21 (1 : ℚ)) 0 = none ∧
    (∀ i, 1 ≤ i → i < (List.replicate 21 (1 : ℚ)).length →
      (returnsAt (List.replicate 21 (1 : ℚ)) i).isSome) ∧
    keptIndices (List.replicate 21 (1 : ℚ)) (List.replicate 21 (2 : ℚ)) =
      (List.range (List.replicate 21 (1 : ℚ)).length).drop 20 :=
  factor_warmup_and_suffix (List.replicate 21 (1 : ℚ)) (List.replicate 21 (2 : ℚ))
    (by simp)
    (fun x hx => by rw [List.eq_of_mem_replicate hx]; norm_num)
    (fun x hx => by rw [List.eq_of_mem_replicate hx]; norm_num)

/-- Concrete 41-row cleaned price column: constant positive prices. -/
def cexPs : List ℚ := List.replicate 41 100

/-- Concrete 41-row cleaned volume column: positive except for zeros at
positions 1 and 21 (a volume of zero is a legal cleaned value). -/
def cexVs : List ℚ := [1000, 0] ++ List.replicate 19 1000 ++ [0] ++ List.replicate 19 1000

theorem sum_eq_zero_of_all_zero {α : Type} [AddCommMonoid α] (xs : List α)
    (h : ∀ x ∈ xs, x = 0) : xs.sum = 0 := by
  induction xs with
  | nil => rfl
  | cons a t ih =>
      rw [List.sum_cons, h a (List.mem_cons_self a t),
        ih (fun x hx => h x (List.mem_cons_of_mem a hx)), add_zero]

theorem sampleVar_of_all_zero {α : Type} [Field α] (xs : List α)
    (h : ∀ x ∈ xs, x = 0) : sampleVar xs = 0 := by
  have hmean : listMean xs = 0 := by
    rw [listMean, sum_eq_zero_of_all_zero xs h, zero_div]
  rw [sampleVar]
  have hsq : (xs.map (fun x => (x - listMean xs) ^ 2)).sum = 0 := by
    refine sum_eq_zero_of_all_zero _ ?_
    intro y hy
    rcases List.mem_map.mp hy with ⟨x, hx, rfl⟩
    rw [h x hx, hmean]
    ring
  rw [hsq, zero_div]

theorem returnsAt_const (ps : List ℚ) (c : ℚ) (hc : c ≠ 0) (hconst : ∀ x ∈ ps, x = c)
    (i : ℕ) (h1 : 1 ≤ i) (h2 : i < ps.length) : returnsAt ps i = some 0 := by
  have hgi : ps.getD i 0 = c := by
    rw [List.getD_eq_getElem ps 0 h2]
    exact hconst _ (List.getElem_mem h2)
  have hprev : i - 1 < ps.length := by omega
  have hgi1 : ps.getD (i - 1) 0 = c := by
    rw [List.getD_eq_getElem ps 0 hprev]
    exact hconst _ (List.getElem_mem hprev)
  rw [returnsAt]
  simp only [pctChangeAt]
  rw [if_pos ⟨h1, h2, by rw [hgi1]; exact hc⟩, hgi, hgi1, div_self hc]
  norm_num

/-- C4 counterexample: on this cleaned series, Returns is already defined
at position 1 (within the claimed 20-position warm-up), and row 20 is
retained while row 21 is dropped (its VolumeFactor is the undefined 0/0
against the zero volume of row 1) and row 22 is retained again, so a
retained row precedes a dropped row and the factor output is not a
contiguous suffix of the cleaned series. -/
theorem factor_suffix_cex :
    returnsAt cexPs 1 = some 0 ∧
    20 ∈ keptIndices cexPs cexVs ∧
    21 ∉ keptIndices cexPs cexVs ∧
    22 ∈ keptIndices cexPs cexVs := by
  rw [keptIndices_eq]
  refine ⟨?_, by decide, by decide, by decide⟩
  exact returnsAt_const cexPs 100 (by norm_num)
    (fun x hx => List.eq_of_mem_replicate hx) 1 le_rfl (by simp [cexPs])

theorem volatilityAt_const (ps : List ℚ) (c : ℚ) (hc : 0 < c) (hconst : ∀ x ∈ ps, x = c)
    (i : ℕ) (h20 : 20 ≤ i) (hi : i < ps.length) :
    volatilityAt ps i = some ((1e9 : ℝ)) := by
  have hpos : ∀ x ∈ ps, 0 < x := fun x hx => (hconst x hx) ▸ hc
  have hdef : volDefined ps i = true := volDefined_true_of_pos ps i hpos h20 hi
  have hwin : ∀ o ∈ volWindow ps i, o = some 0 := by
    intro o ho
    rcases List.mem_map.mp ho with ⟨k, hk, rfl⟩
    rcases List.mem_range'_1.mp hk with ⟨hk1, hk2⟩
    exact returnsAt_const ps c (ne_of_gt hc) hconst k (by omega) (by omega)
  have hvals : ∀ y ∈ (volWindow ps i).map (fun o => ((o.getD 0 : ℚ) : ℝ)), y = 0 := by
    intro y hy
    rcases List.mem_map.mp hy with ⟨o, ho, rfl⟩
    rw [hwin o ho]
    norm_num
  have hstd : sampleStd ((volWindow ps i).map (fun o => ((o.getD 0 : ℚ) : ℝ))) = 0 := by
    rw [sampleStd, sampleVar_of_all_zero _ hvals, Real.sqrt_zero]
  rw [volatilityAt, if_pos hdef, hstd]
  norm_num

/-- C9: on every cleaned series of constant positive price with at least
21 rows, all defined Returns equal 0, Volatility is undefined until 20
returns are available, and every defined Volatility value is the large
finite number 1 / (0 + 1e-9) = 1e9 (never infinite or undefined). -/
theorem constant_price_volatility (ps : List ℚ) (c : ℚ) (hc : 0 < c)
    (hconst : ∀ x ∈ ps, x = c) (_hlen : 21 ≤ ps.length) :
    (∀ i, 1 ≤ i → i < ps.length → returnsAt ps i = some 0) ∧
    (∀ i < 20, volatilityAt ps i = none) ∧
    (∀ i, 20 ≤ i → i < ps.length → volatilityAt ps i = some ((1e9 : ℝ))) := by
  refine ⟨fun i h1 h2 => returnsAt_const ps c (ne_of_gt hc) hconst i h1 h2,
    fun i hi => volatilityAt_eq_none_of_lt ps i hi,
    fun i h20 hi => volatilityAt_const ps c hc hconst i h20 hi⟩

/-- Witness for C9 on a concrete constant series of 21 rows of price 5. -/
theorem constant_price_volatility_witness :
    (∀ i, 1 ≤ i → i < (List.replicate 21 (5 : ℚ)).length →
      returnsAt (List.replicate 21 (5 : ℚ)) i = some 0) ∧
    (∀ i < 20, volatilityAt (List.replicate 21 (5 : ℚ)) i = none) ∧
    (∀ i, 20 ≤ i → i < (List.replicate 21 (5 : ℚ)).length →
      volatilityAt (List.replicate 21 (5 : ℚ)) i = some ((1e9 : ℝ))) :=
  constant_price_volatility (List.replicate 21 (5 : ℚ)) 5 (by norm_num)
    (fun x hx => List.eq_of_mem_replicate hx) (by simp)

/-- Ascending sort of a column, the order statistics a quantile call of
the source works from. -/
def sortAsc {α : Type} [LinearOrder α] (xs : List α) : List α :=
  List.insertionSort (· ≤ ·) xs

/-- Linear interpolation between order statistics at fractional position
`h`: with `j` the floor of `h`, the value is `s[j] + (h - j) * (s[j+1] - s[j])`,
and the neighbour index falls back to `s[j]` when it is out of range. -/
def interpAt {α : Type} [LinearOrderedField α] [FloorRing α] (s : List α) (h : α) : α :=
  s.getD (Int.floor h).toNat 0 +
    (h - ((Int.floor h).toNat : α)) *
      (s.getD ((Int.floor h).toNat + 1) (s.getD (Int.floor h).toNat 0) -
        s.getD (Int.floor h).toNat 0)

/-- The linear-interpolation quantile of the source: the value at
fractional position `p * (n - 1)` of the sorted column. -/
def quantile {α : Type} [LinearOrderedField α] [FloorRing α] (p : α) (xs : List α) : α :=
  interpAt (sortAsc xs) (p * ((xs.length : α) - 1))

/-- Clipping a value to the closed interval from `lo` to `hi`, applied as
the source does: the minimum with `hi` of the maximum with `lo`. -/
def clip {α : Type} [LinearOrder α] (lo hi x : α) : α := min hi (max lo x)

/-- The Winsorizer of the source: clip every value of the column to the
interval between its 1st and 99th linear-interpolation percentile. -/
def winsorize {α : Type} [LinearOrderedField α] [FloorRing α] (xs : List α) : List α :=
  xs.map (clip (quantile (1 / 100) xs) (quantile (1 - 1 / 100) xs))

theorem sortAsc_sorted {α : Type} [LinearOrder α] (xs : List α) :
    List.Sorted (· ≤ ·) (sortAsc xs) :=
  List.sorted_insertionSort (· ≤ ·) xs

theorem sortAsc_perm {α : Type} [LinearOrder α] (xs : List α) : List.Perm (sortAsc xs) xs :=
  List.perm_insertionSort (· ≤ ·) xs

theorem sortAsc_length {α : Type} [LinearOrder α] (xs : List α) :
    (sortAsc xs).length = xs.length :=
  (sortAsc_perm xs).length_eq

theorem sorted_getD_mono {α : Type} [LinearOrder α] [Zero α] {s : List α}
    (hs : List.Sorted (· ≤ ·) s) {i j : ℕ} (hij : i ≤ j) (hj : j < s.length) :
    s.getD i 0 ≤ s.getD j 0 := by
  have hi : i < s.length := lt_of_le_of_lt hij hj
  rw [List.getD_eq_getElem s 0 hi, List.getD_eq_getElem s 0 hj]
  have := hs.rel_get_of_le (a := ⟨i, hi⟩) (b := ⟨j, hj⟩) hij
  simpa using this

theorem getD_map_lt {α : Type} [LinearOrder α] [Zero α] (f : α → α) (l : List α) (i : ℕ)
    (hi : i < l.length) : (l.map f).getD i 0 = f (l.getD i 0) := by
  rw [List.getD_eq_getElem (l.map f) 0 (by simpa using hi), List.getD_eq_getElem l 0 hi,
    List.getElem_map]

theorem sortAsc_map_monotone {α : Type} [LinearOrder α] (f : α → α) (hf : Monotone f)
    (xs : List α) : sortAsc (xs.map f) = (sortAsc xs).map f := by
  have hperm : List.Perm (sortAsc (xs.map f)) ((sortAsc xs).map f) :=
    (sortAsc_perm (xs.map f)).trans ((sortAsc_perm xs).symm.map f)
  refine List.eq_of_perm_of_sorted hperm (sortAsc_sorted _) ?_
  exact List.Pairwise.map f (fun a b hab => hf hab) (sortAsc_sorted xs)

theorem interpAt_natCast {α : Type} [LinearOrderedField α] [FloorRing α] (s : List α)
    (m : ℕ) : interpAt s ((m : ℕ) : α) = s.getD m 0 := by
  unfold interpAt
  rw [Int.floor_natCast]
  simp

theorem getD_pair_eq {α : Type} [LinearOrder α] [Zero α] (s : List α) (j : ℕ)
    (h : j + 1 < s.length) : s.getD (j + 1) (s.getD j 0) = s.getD (j + 1) 0 := by
  rw [List.getD_eq_getElem s (s.getD j 0) h, List.getD_eq_getElem s 0 h]

theorem interp_slope_nonneg {α : Type} [LinearOrderedField α] (s : List α)
    (hs : List.Sorted (· ≤ ·) s) (j : ℕ) :
    0 ≤ s.getD (j + 1) (s.getD j 0) - s.getD j 0 := by
  rcases Nat.lt_or_ge (j + 1) s.length with hlt | hge
  · rw [getD_pair_eq s j hlt]
    have := sorted_getD_mono hs (Nat.le_succ j) hlt
    linarith
  · rw [List.getD_eq_default s (s.getD j 0) hge]
    simp

theorem interpAt_mono {α : Type} [LinearOrderedField α] [FloorRing α] (s : List α)
    (hs : List.Sorted (· ≤ ·) s) (h h' : α) (h0 : 0 ≤ h) (hhh : h ≤ h')
    (hub : h' ≤ (s.length : α) - 1) : interpAt s h ≤ interpAt s h' := by
  have h0' : 0 ≤ h' := le_trans h0 hhh
  have hfl : (0 : ℤ) ≤ Int.floor h := Int.floor_nonneg.mpr h0
  have hfl' : (0 : ℤ) ≤ Int.floor h' := Int.floor_nonneg.mpr h0'
  obtain ⟨j, hjz⟩ : ∃ j : ℕ, (j : ℤ) = Int.floor h := ⟨(Int.floor h).toNat, Int.toNat_of_nonneg hfl⟩
  obtain ⟨j', hjz'⟩ : ∃ k : ℕ, (k : ℤ) = Int.floor h' :=
    ⟨(Int.floor h').toNat, Int.toNat_of_nonneg hfl'⟩
  have hjt : (Int.floor h).toNat = j := by omega
  have hjt' : (Int.floor h').toNat = j' := by omega
  have hj_le : (j : α) ≤ h := by
    have := Int.floor_le h
    rw [← hjz] at this
    exact_mod_cast this
  have hj'_le : (j' : α) ≤ h' := by
    have := Int.floor_le h'
    rw [← hjz'] at this
    exact_mod_cast this
  have hlt1 : h < (j : α) + 1 := by
    have := Int.lt_floor_add_one h
    rw [← hjz] at this
    exact_mod_cast this
  have hjj' : j ≤ j' := by
    have := Int.floor_le_floor (α := α) hhh
    omega
  have hj'_lt_len : j' < s.length := by
    by_contra hcon
    push_neg at hcon
    have h1 : (s.length : α) ≤ (j' : α) := by exact_mod_cast hcon
    linarith
  unfold interpAt
  rw [hjt, hjt']
  rcases Nat.eq_or_lt_of_le hjj' with heq | hltj
  · subst heq
    have hslope := interp_slope_nonneg s hs j
    have hsub : h - (j : α) ≤ h' - (j : α) := by linarith
    have hmul := mul_le_mul_of_nonneg_right hsub hslope
    linarith
  · have hj1_le : j + 1 ≤ j' := Nat.succ_le_of_lt hltj
    have hj1_lt_len : j + 1 < s.length := Nat.lt_of_le_of_lt hj1_le hj'_lt_len
    have hbeq : s.getD (j + 1) (s.getD j 0) = s.getD (j + 1) 0 := getD_pair_eq s j hj1_lt_len
    have hab : s.getD j 0 ≤ s.getD (j + 1) 0 := sorted_getD_mono hs (Nat.le_succ j) hj1_lt_len
    have hstep1 : s.getD j 0 + (h - (j : α)) *
        (s.getD (j + 1) (s.getD j 0) - s.getD j 0) ≤ s.getD (j + 1) 0 := by
      rw [hbeq]
      have hfac : (0 : α) ≤ (1 - (h - (j : α))) * (s.getD (j + 1) 0 - s.getD j 0) :=
        mul_nonneg (by linarith) (by linarith)
      nlinarith [hfac]
    have hstep2 : s.getD (j + 1) 0 ≤ s.getD j' 0 := sorted_getD_mono hs hj1_le hj'_lt_len
    have hstep3 : s.getD j' 0 ≤ s.getD j' 0 + (h' - (j' : α)) *
        (s.getD (j' + 1) (s.getD j' 0) - s.getD j' 0) := by
      have := mul_nonneg (by linarith : (0 : α) ≤ h' - (j' : α)) (interp_slope_nonneg s hs j')
      linarith
    linarith

theorem quantile_le_quantile {α : Type} [LinearOrderedField α] [FloorRing α]
    (p q : α) (xs : List α) (hxs : xs ≠ []) (hp : 0 ≤ p) (hpq : p ≤ q) (hq : q ≤ 1) :
    quantile p xs ≤ quantile q xs := by
  unfold quantile
  have hlen : 1 ≤ xs.length := List.length_pos.mpr hxs
  have hn : (0 : α) ≤ (xs.length : α) - 1 := by
    have h1 : (1 : α) ≤ (xs.length : α) := by exact_mod_cast hlen
    linarith
  refine interpAt_mono _ (sortAsc_sorted xs) _ _ (mul_nonneg hp hn)
    (mul_le_mul_of_nonneg_right hpq hn) ?_
  rw [sortAsc_length]
  calc q * ((xs.length : α) - 1) ≤ 1 * ((xs.length : α) - 1) :=
        mul_le_mul_of_nonneg_right hq hn
    _ = (xs.length : α) - 1 := one_mul _

theorem clip_monotone {α : Type} [LinearOrder α] (lo hi : α) : Monotone (clip lo hi) :=
  fun _ _ hab => min_le_min le_rfl (max_le_max le_rfl hab)

theorem clip_of_mem {α : Type} [LinearOrder α] {lo hi x : α} (h1 : lo ≤ x) (h2 : x ≤ hi) :
    clip lo hi x = x := by
  rw [clip, max_eq_right h1, min_eq_right h2]

theorem clip_mem_lo {α : Type} [LinearOrder α] {lo hi : α} (h : lo ≤ hi) (x : α) :
    lo ≤ clip lo hi x :=
  le_min h (le_max_left lo x)

theorem clip_mem_hi {α : Type} [LinearOrder α] (lo hi x : α) : clip lo hi x ≤ hi :=
  min_le_left hi _

theorem clip_idem {α : Type} [LinearOrder α] {lo hi : α} (h : lo ≤ hi) (x : α) :
    clip lo hi (clip lo hi x) = clip lo hi x :=
  clip_of_mem (clip_mem_lo h x) (clip_mem_hi lo hi x)

theorem quantile_eq_getD_of_exact {α : Type} [LinearOrderedField α] [FloorRing α]
    (xs : List α) (m : ℕ) (hlen : 1 ≤ xs.length) (hm : xs.length - 1 = 100 * m) :
    quantile (1 / 100) xs = (sortAsc xs).getD m 0 ∧
    quantile (1 - 1 / 100) xs = (sortAsc xs).getD (99 * m) 0 := by
  have h1 : xs.length = 100 * m + 1 := by omega
  have hcast : ((xs.length : α) - 1) = ((100 * m : ℕ) : α) := by
    rw [h1]
    push_cast
    ring
  constructor
  · unfold quantile
    rw [hcast]
    have h2 : (1 / 100 : α) * ((100 * m : ℕ) : α) = ((m : ℕ) : α) := by push_cast; ring
    rw [h2, interpAt_natCast]
  · unfold quantile
    rw [hcast]
    have h2 : (1 - 1 / 100 : α) * ((100 * m : ℕ) : α) = ((99 * m : ℕ) : α) := by
      push_cast
      ring
    rw [h2, interpAt_natCast]

/-- C5 (amended): winsorization is idempotent on every factor column whose
length n satisfies 100 dividing n - 1 (then the 1st and 99th percentile
positions fall exactly on order statistics, so re-clipping moves nothing);
for other lengths a second application can clip strictly further, as the
counterexample shows, so the claim does not hold for every series. -/
theorem winsorize_idempotent_aligned (xs : List ℚ) (hdvd : 100 ∣ (xs.length - 1)) :
    winsorize (winsorize xs) = winsorize xs := by
  rcases eq_or_ne xs [] with rfl | hne
  · rfl
  obtain ⟨m, hm⟩ := hdvd
  have hlen : 1 ≤ xs.length := List.length_pos.mpr hne
  obtain ⟨hlo, hhi⟩ := quantile_eq_getD_of_exact (α := ℚ) xs m hlen hm
  set lo := quantile (1 / 100 : ℚ) xs with hlo_def
  set hi := quantile (1 - 1 / 100 : ℚ) xs with hhi_def
  have hsortlen : (sortAsc xs).length = xs.length := sortAsc_length xs
  have hm_lt : m < (sortAsc xs).length := by omega
  have hm99_lt : 99 * m < (sortAsc xs).length := by omega
  have hlohi : lo ≤ hi := by
    rw [hlo, hhi]
    exact sorted_getD_mono (sortAsc_sorted xs) (by omega) hm99_lt
  have hwx : winsorize xs = xs.map (clip lo hi) := rfl
  have hwlen : (winsorize xs).length = xs.length := by rw [hwx, List.length_map]
  have hsortw : sortAsc (winsorize xs) = (sortAsc xs).map (clip lo hi) := by
    rw [hwx]
    exact sortAsc_map_monotone _ (clip_monotone lo hi) xs
  obtain ⟨hq1, hq2⟩ := quantile_eq_getD_of_exact (α := ℚ) (winsorize xs) m
    (by omega) (by omega)
  have hlo2 : quantile (1 / 100 : ℚ) (winsorize xs) = lo := by
    rw [hq1, hsortw, getD_map_lt _ _ _ hm_lt, ← hlo]
    exact clip_of_mem le_rfl hlohi
  have hhi2 : quantile (1 - 1 / 100 : ℚ) (winsorize xs) = hi := by
    rw [hq2, hsortw, getD_map_lt _ _ _ hm99_lt, ← hhi]
    exact clip_of_mem hlohi le_rfl
  show (winsorize xs).map (clip (quantile (1 / 100 : ℚ) (winsorize xs))
    (quantile (1 - 1 / 100 : ℚ) (winsorize xs))) = winsorize xs
  rw [hlo2, hhi2, hwx, List.map_map]
  refine List.map_congr_left ?_
  intro a _
  exact clip_idem hlohi a

/-- C5 counterexample: on the three-value column [0, 10, 20] the first
winsorization clips to [1/5, 10, 99/5], and a second application clips
strictly further (to [99/250, 10, 4901/250]), so winsorization as
implemented is not idempotent. -/
theorem winsorize_not_idempotent_cex :
    winsorize (winsorize ([0, 10, 20] : List ℚ)) ≠ winsorize ([0, 10, 20] : List ℚ) := by
  have h1 : winsorize ([0, 10, 20] : List ℚ) = [1 / 5, 10, 99 / 5] := by
    norm_num [winsorize, quantile, interpAt, sortAsc, clip, List.insertionSort,
      List.orderedInsert]
  rw [h1]
  have h2 : winsorize ([1 / 5, 10, 99 / 5] : List ℚ) = [99 / 250, 10, 4901 / 250] := by
    norm_num [winsorize, quantile, interpAt, sortAsc, clip, List.insertionSort,
      List.orderedInsert]
  rw [h2]
  intro hcon
  have := List.head_eq_of_cons_eq hcon
  norm_num at this

/-- Witness for C5 (amended) on a one-value column, whose length satisfies
the divisibility side condition. -/
theorem winsorize_idempotent_aligned_witness :
    winsorize (winsorize ([5] : List ℚ)) = winsorize ([5] : List ℚ) :=
  winsorize_idempotent_aligned [5] ⟨0, rfl⟩

/-- NaN-aware strict comparison: true when both operands are defined and
the first is less than the second; any comparison with an undefined value
is false, as for IEEE NaN in the source. -/
def nanLt {α : Type} [LinearOrder α] (a b : Option α) : Bool :=
  match a, b with
  | some x, some y => decide (x < y)
  | _, _ => false

/-- A threshold of the Signal stage: the quantile of the defined scores
(the source quantile skips undefined entries), or undefined when no score
is defined. -/
def scoreThreshold {α : Type} [LinearOrderedField α] [FloorRing α] (p : α)
    (scores : List (Option α)) : Option α :=
  if (scores.filterMap id).isEmpty then none
  else some (quantile p (scores.filterMap id))

/-- Signal of one row: the source initialises the column at 0, then sets
+1 where the score strictly exceeds the upper threshold, then -1 where
the score is strictly below the lower threshold, so a -1 assignment wins
any overlap and rows failing both comparisons keep 0. -/
def signalOf {α : Type} [LinearOrder α] (lo hi sc : Option α) : ℤ :=
  if nanLt sc lo then -1 else if nanLt hi sc then 1 else 0

/-- The Signal column: thresholds are the 30th and 70th percentile of the
full score series. -/
def signalCol {α : Type} [LinearOrderedField α] [FloorRing α]
    (scores : List (Option α)) : List ℤ :=
  scores.map (signalOf (scoreThreshold (3 / 10) scores) (scoreThreshold (7 / 10) scores))

/-- Label mapping of the source: +1 Buy, -1 Sell, 0 Hold. -/
def signalLabel (s : ℤ) : String :=
  if s = 1 then "Buy" else if s = -1 then "Sell" else "Hold"

theorem nanLt_none_left {α : Type} [LinearOrder α] (b : Option α) :
    nanLt (none : Option α) b = false := by
  cases b <;> rfl

theorem nanLt_none_right {α : Type} [LinearOrder α] (a : Option α) :
    nanLt a (none : Option α) = false := by
  cases a <;> rfl

/-- C1: for every row with a defined MFT score, the Signal is +1 exactly
when the score strictly exceeds the 70th percentile of the score series,
-1 exactly when it is strictly below the 30th percentile, 0 otherwise; a
score exactly equal to either threshold yields 0 (Hold); and the labels
map +1 to Buy, -1 to Sell and 0 to Hold. -/
theorem mft_signal_thresholds (scores : List (Option ℚ)) (i : ℕ) (v : ℚ)
    (hv : scores.getD i none = some v) :
    ∃ lo hi, scoreThreshold (3 / 10 : ℚ) scores = some lo ∧
      scoreThreshold (7 / 10 : ℚ) scores = some hi ∧ lo ≤ hi ∧
      ((signalCol scores).getD i 0 = 1 ↔ hi < v) ∧
      ((signalCol scores).getD i 0 = -1 ↔ v < lo) ∧
      ((signalCol scores).getD i 0 = 0 ↔ lo ≤ v ∧ v ≤ hi) ∧
      ((v = lo ∨ v = hi) → (signalCol scores).getD i 0 = 0) ∧
      signalLabel 1 = "Buy" ∧ signalLabel (-1) = "Sell" ∧ signalLabel 0 = "Hold" := by
  have hilt : i < scores.length := by
    by_contra hcon
    push_neg at hcon
    rw [List.getD_eq_default scores none hcon] at hv
    exact Option.noConfusion hv
  have hgetE : scores[i] = some v := by
    rw [← List.getD_eq_getElem scores none hilt]
    exact hv
  have hmem : some v ∈ scores := hgetE ▸ List.getElem_mem hilt
  have hvmem : v ∈ scores.filterMap id := List.mem_filterMap.mpr ⟨some v, hmem, rfl⟩
  have hne : scores.filterMap id ≠ [] := List.ne_nil_of_mem hvmem
  have hnotempty : ¬ ((scores.filterMap id).isEmpty = true) := by
    simpa [List.isEmpty_iff] using hne
  set ds := scores.filterMap id with hds
  set lo := quantile (3 / 10 : ℚ) ds with hlo_def
  set hi := quantile (7 / 10 : ℚ) ds with hhi_def
  have hthlo : scoreThreshold (3 / 10 : ℚ) scores = some lo := by
    rw [scoreThreshold, if_neg hnotempty]
  have hthhi : scoreThreshold (7 / 10 : ℚ) scores = some hi := by
    rw [scoreThreshold, if_neg hnotempty]
  have hlohi : lo ≤ hi :=
    quantile_le_quantile (3 / 10) (7 / 10) ds hne (by norm_num) (by norm_num) (by norm_num)
  have hlen2 : i < (signalCol scores).length := by
    rw [signalCol, List.length_map]
    exact hilt
  have hsig : (signalCol scores).getD i 0 =
      if v < lo then (-1 : ℤ) else if hi < v then 1 else 0 := by
    rw [List.getD_eq_getElem _ 0 hlen2]
    show (scores.map (signalOf (scoreThreshold (3 / 10 : ℚ) scores)
      (scoreThreshold (7 / 10 : ℚ) scores)))[i] = _
    rw [List.getElem_map, hgetE, hthlo, hthhi]
    simp [signalOf, nanLt]
  by_cases h1 : v < lo
  · have hs0 : (signalCol scores).getD i 0 = -1 := by rw [hsig, if_pos h1]
    refine ⟨lo, hi, hthlo, hthhi, hlohi, ?_, ?_, ?_, ?_, rfl, rfl, rfl⟩
    · rw [hs0]
      constructor
      · intro hx
        exact absurd hx (by decide)
      · intro hx
        exfalso
        linarith
    · rw [hs0]
      simp [h1]
    · rw [hs0]
      constructor
      · intro hx
        exact absurd hx (by decide)
      · intro hx
        exfalso
        linarith [hx.1]
    · intro hx
      exfalso
      rcases hx with rfl | rfl
      · exact lt_irrefl _ h1
      · linarith
  · by_cases h2 : hi < v
    · have hs0 : (signalCol scores).getD i 0 = 1 := by rw [hsig, if_neg h1, if_pos h2]
      refine ⟨lo, hi, hthlo, hthhi, hlohi, ?_, ?_, ?_, ?_, rfl, rfl, rfl⟩
      · rw [hs0]
        simp [h2]
      · rw [hs0]
        constructor
        · intro hx
          exact absurd hx (by decide)
        · intro hx
          exact absurd hx h1
      · rw [hs0]
        constructor
        · intro hx
          exact absurd hx (by decide)
        · intro hx
          exfalso
          linarith [hx.2]
      · intro hx
        exfalso
        rcases hx with rfl | rfl
        · linarith
        · exact lt_irrefl _ h2
    · have hs0 : (signalCol scores).getD i 0 = 0 := by rw [hsig, if_neg h1, if_neg h2]
      refine ⟨lo, hi, hthlo, hthhi, hlohi, ?_, ?_, ?_, ?_, rfl, rfl, rfl⟩
      · rw [hs0]
        constructor
        · intro hx
          exact absurd hx (by decide)
        · intro hx
          exact absurd hx h2
      · rw [hs0]
        constructor
        · intro hx
          exact absurd hx (by decide)
        · intro hx
          exact absurd hx h1
      · rw [hs0]
        simp [le_of_not_lt h1, le_of_not_lt h2]
      · intro _
        exact hs0

/-- Witness for C1 on a concrete three-row score column. -/
theorem mft_signal_thresholds_witness :
    ∃ lo hi, scoreThreshold (3 / 10 : ℚ) ([some 0, some 1, some 2] : List (Option ℚ)) = some lo ∧
      scoreThreshold (7 / 10 : ℚ) ([some 0, some 1, some 2] : List (Option ℚ)) = some hi ∧
      lo ≤ hi ∧
      ((signalCol ([some 0, some 1, some 2] : List (Option ℚ))).getD 1 0 = 1 ↔ hi < 1) ∧
      ((signalCol ([some 0, some 1, some 2] : List (Option ℚ))).getD 1 0 = -1 ↔ (1 : ℚ) < lo) ∧
      ((signalCol ([some 0, some 1, some 2] : List (Option ℚ))).getD 1 0 = 0 ↔
        lo ≤ 1 ∧ (1 : ℚ) ≤ hi) ∧
      (((1 : ℚ) = lo ∨ (1 : ℚ) = hi) →
        (signalCol ([some 0, some 1, some 2] : List (Option ℚ))).getD 1 0 = 0) ∧
      signalLabel 1 = "Buy" ∧ signalLabel (-1) = "Sell" ∧ signalLabel 0 = "Hold" :=
  mft_signal_thresholds ([some 0, some 1, some 2] : List (Option ℚ)) 1 1 rfl

/-- C10: a row whose MFT score is undefined fails both strict threshold
comparisons, so its Signal is 0 (Hold); and every row carries a defined
Signal in the set of -1, 0 and +1. -/
theorem nan_score_signal_hold (scores : List (Option ℚ)) (i : ℕ) (hi : i < scores.length) :
    (scores.getD i none = none → (signalCol scores).getD i 0 = 0) ∧
    ((signalCol scores).getD i 0 = -1 ∨ (signalCol scores).getD i 0 = 0 ∨
      (signalCol scores).getD i 0 = 1) := by
  have hlen2 : i < (signalCol scores).length := by
    rw [signalCol, List.length_map]
    exact hi
  have hval : (signalCol scores).getD i 0 =
      signalOf (scoreThreshold (3 / 10 : ℚ) scores)
        (scoreThreshold (7 / 10 : ℚ) scores) scores[i] := by
    rw [List.getD_eq_getElem _ 0 hlen2]
    show (scores.map (signalOf (scoreThreshold (3 / 10 : ℚ) scores)
      (scoreThreshold (7 / 10 : ℚ) scores)))[i] = _
    rw [List.getElem_map]
  constructor
  · intro hnone
    rw [List.getD_eq_getElem scores none hi] at hnone
    rw [hval, hnone, signalOf, nanLt_none_left, nanLt_none_right]
    rfl
  · rw [hval, signalOf]
    split_ifs <;> norm_num

/-- Witness for C10 on a concrete column with an undefined score. -/
theorem nan_score_signal_hold_witness :
    ((([some 3, none] : List (Option ℚ)).getD 1 none = none →
      (signalCol ([some 3, none] : List (Option ℚ))).getD 1 0 = 0)) ∧
    ((signalCol ([some 3, none] : List (Option ℚ))).getD 1 0 = -1 ∨
      (signalCol ([some 3, none] : List (Option ℚ))).getD 1 0 = 0 ∨
      (signalCol ([some 3, none] : List (Option ℚ))).getD 1 0 = 1) :=
  nan_score_signal_hold [some 3, none] 1 (by norm_num)

/-- StrategyReturn at row `i`: the previous row Signal (the shifted
column of the source) times the current Returns; undefined at row 0,
where the shifted Signal has no value. -/
def strategyAt {α : Type} [Field α] (sigs : List ℤ) (rets : List α) (i : ℕ) : Option α :=
  if 1 ≤ i ∧ i < rets.length then
    some (((sigs.getD (i - 1) 0 : ℤ) : α) * rets.getD i 0)
  else none

/-- The StrategyReturn column. -/
def strategyList {α : Type} [Field α] (sigs : List ℤ) (rets : List α) : List (Option α) :=
  (List.range rets.length).map (strategyAt sigs rets)

/-- The skip-undefined cumulative product of the source cumprod:
undefined entries stay undefined in place and do not enter the running
product carried across them. -/
def cumprodAux {α : Type} [Field α] (acc : α) : List (Option α) → List (Option α)
  | [] => []
  | none :: t => none :: cumprodAux acc t
  | some x :: t => some (acc * x) :: cumprodAux (acc * x) t

/-- The CumulativeReturn column: cumulative product of 1 plus the
StrategyReturn column. -/
def cumulativeList {α : Type} [Field α] (sigs : List ℤ) (rets : List α) : List (Option α) :=
  cumprodAux 1 ((strategyList sigs rets).map (Option.map (fun x => 1 + x)))

theorem cumprodAux_length {α : Type} [Field α] (l : List (Option α)) (acc : α) :
    (cumprodAux acc l).length = l.length := by
  induction l generalizing acc with
  | nil => rfl
  | cons h t ih => cases h <;> simp [cumprodAux, ih]

theorem cumprodAux_map_some {α : Type} [Field α] (l : List α) (acc : α) (i : ℕ)
    (hi : i < l.length) :
    (cumprodAux acc (l.map some)).getD i none = some (acc * (l.take (i + 1)).prod) := by
  induction l generalizing acc i with
  | nil => cases hi
  | cons x t ih =>
      cases i with
      | zero => simp [cumprodAux]
      | succ n =>
          have hn : n < t.length := by simpa using hi
          simp only [List.map_cons, cumprodAux, List.getD_cons_succ]
          rw [ih (acc * x) n hn, List.take_succ_cons, List.prod_cons, ← mul_assoc]

theorem strategyList_length {α : Type} [Field α] (sigs : List ℤ) (rets : List α) :
    (strategyList sigs rets).length = rets.length := by
  rw [strategyList, List.length_map, List.length_range]

theorem strategyList_getD_zero {α : Type} [Field α] (sigs : List ℤ) (rets : List α)
    (hN : 1 ≤ rets.length) : (strategyList sigs rets).getD 0 none = none := by
  have h0 : 0 < (strategyList sigs rets).length := by rw [strategyList_length]; omega
  rw [List.getD_eq_getElem _ none h0]
  simp only [strategyList, List.getElem_map, List.getElem_range]
  simp [strategyAt]

theorem strategyList_getD_succ {α : Type} [Field α] (sigs : List ℤ) (rets : List α)
    (i : ℕ) (h1 : 1 ≤ i) (hi : i < rets.length) :
    (strategyList sigs rets).getD i none =
      some (((sigs.getD (i - 1) 0 : ℤ) : α) * rets.getD i 0) := by
  have h0 : i < (strategyList sigs rets).length := by rw [strategyList_length]; omega
  rw [List.getD_eq_getElem _ none h0]
  simp only [strategyList, List.getElem_map, List.getElem_range]
  rw [strategyAt, if_pos ⟨h1, hi⟩]

theorem strategyList_eq {α : Type} [Field α] (sigs : List ℤ) (rets : List α)
    (hN : 1 ≤ rets.length) :
    strategyList sigs rets = none :: (List.range (rets.length - 1)).map
      (fun k => some (((sigs.getD k 0 : ℤ) : α) * rets.getD (k + 1) 0)) := by
  obtain ⟨N, hNeq⟩ : ∃ N, rets.length = N + 1 := ⟨rets.length - 1, by omega⟩
  rw [strategyList, hNeq, List.range_succ_eq_map, List.map_cons, List.map_map]
  have hhead : strategyAt sigs rets 0 = none := by simp [strategyAt]
  rw [hhead]
  have htail : (List.range N).map (strategyAt sigs rets ∘ Nat.succ) =
      (List.range N).map (fun k => some (((sigs.getD k 0 : ℤ) : α) * rets.getD (k + 1) 0)) := by
    refine List.map_congr_left ?_
    intro k hk
    have hklt : k < N := List.mem_range.mp hk
    show strategyAt sigs rets (k + 1) = _
    rw [strategyAt, if_pos ⟨by omega, by omega⟩]
    simp
  rw [htail]
  norm_num

/-- The factor lists the CumulativeReturn compounds, row by row. -/
def onePlusStrategy {α : Type} [Field α] (sigs : List ℤ) (rets : List α) : List α :=
  (List.range (rets.length - 1)).map
    (fun k => 1 + ((sigs.getD k 0 : ℤ) : α) * rets.getD (k + 1) 0)

theorem cumulativeList_eq {α : Type} [Field α] (sigs : List ℤ) (rets : List α)
    (hN : 1 ≤ rets.length) :
    cumulativeList sigs rets = none :: cumprodAux 1 ((onePlusStrategy sigs rets).map some) := by
  rw [cumulativeList, strategyList_eq sigs rets hN, List.map_cons]
  show cumprodAux 1 (none :: _) = _
  rw [cumprodAux, onePlusStrategy, List.map_map, List.map_map]
  congr 1

theorem cumulativeList_length {α : Type} [Field α] (sigs : List ℤ) (rets : List α) :
    (cumulativeList sigs rets).length = rets.length := by
  rw [cumulativeList, cumprodAux_length, List.length_map, strategyList_length]

theorem cumulativeList_getD_zero {α : Type} [Field α] (sigs : List ℤ) (rets : List α)
    (hN : 1 ≤ rets.length) : (cumulativeList sigs rets).getD 0 none = none := by
  rw [cumulativeList_eq sigs rets hN]
  rfl

theorem cumulativeList_getD_succ {α : Type} [Field α] (sigs : List ℤ) (rets : List α)
    (i : ℕ) (h1 : 1 ≤ i) (hi : i < rets.length) :
    (cumulativeList sigs rets).getD i none =
      some (((List.range i).map
        (fun k => 1 + ((sigs.getD k 0 : ℤ) : α) * rets.getD (k + 1) 0)).prod) := by
  obtain ⟨n, rfl⟩ : ∃ n, i = n + 1 := ⟨i - 1, by omega⟩
  rw [cumulativeList_eq sigs rets (by omega), List.getD_cons_succ]
  have hlen : n < (onePlusStrategy sigs rets).length := by
    rw [onePlusStrategy, List.length_map, List.length_range]
    omega
  have hmin : min (n + 1) (rets.length - 1) = n + 1 := by omega
  rw [cumprodAux_map_some _ 1 n hlen, one_mul, onePlusStrategy, ← List.map_take,
    List.take_range, hmin]

theorem cumulativeList_last {α : Type} [Field α] (sigs : List ℤ) (rets : List α)
    (hN : 2 ≤ rets.length) :
    (cumulativeList sigs rets).getLast? = some (some ((onePlusStrategy sigs rets).prod)) := by
  have hlen : (cumulativeList sigs rets).length = rets.length := cumulativeList_length sigs rets
  have hpos : rets.length - 1 < (cumulativeList sigs rets).length := by omega
  rw [List.getLast?_eq_getElem?, hlen, List.getElem?_eq_getElem hpos]
  rw [← List.getD_eq_getElem _ none hpos,
    cumulativeList_getD_succ sigs rets (rets.length - 1) (by omega) (by omega)]
  rw [onePlusStrategy]

/-- C3 (amended): StrategyReturn at every row i ≥ 1 is the previous row
Signal times the current Returns (never the same-row Signal) and row 0
has an undefined StrategyReturn; for every row i ≥ 1 the CumulativeReturn
is the product of the defined (1 + StrategyReturn) factors up to row i;
but the first row CumulativeReturn is itself undefined (NaN in the
source) rather than the empty running product 1 the claim asserts; for
series of at least two rows the final CumulativeReturn equals the
product of all defined (1 + StrategyReturn) terms. -/
theorem backtest_lagged_compounding (sigs : List ℤ) (rets : List ℚ) (hN : 1 ≤ rets.length) :
    (strategyList sigs rets).getD 0 none = none ∧
    (∀ i, 1 ≤ i → i < rets.length → (strategyList sigs rets).getD i none =
      some (((sigs.getD (i - 1) 0 : ℤ) : ℚ) * rets.getD i 0)) ∧
    (cumulativeList sigs rets).getD 0 none = none ∧
    (∀ i, 1 ≤ i → i < rets.length → (cumulativeList sigs rets).getD i none =
      some (((List.range i).map
        (fun k => 1 + ((sigs.getD k 0 : ℤ) : ℚ) * rets.getD (k + 1) 0)).prod)) ∧
    (2 ≤ rets.length →
      (cumulativeList sigs rets).getLast? = some (some ((onePlusStrategy sigs rets).prod))) := by
  exact ⟨strategyList_getD_zero sigs rets hN,
    fun i h1 hi => strategyList_getD_succ sigs rets i h1 hi,
    cumulativeList_getD_zero sigs rets hN,
    fun i h1 hi => cumulativeList_getD_succ sigs rets i h1 hi,
    fun h2 => cumulativeList_last sigs rets h2⟩

/-- C3 counterexample: on a two-row backtest the source leaves the first
CumulativeReturn undefined (NaN), not equal to the running product 1 that
the claim assigns to a row whose StrategyReturn is undefined. -/
theorem backtest_first_row_cex :
    (cumulativeList ([1, 1] : List ℤ) ([0, 0] : List ℚ)).getD 0 none = none ∧
    (cumulativeList ([1, 1] : List ℤ) ([0, 0] : List ℚ)).getD 0 none ≠ some 1 :=
  ⟨cumulativeList_getD_zero [1, 1] [0, 0] (by norm_num),
    by rw [cumulativeList_getD_zero [1, 1] [0, 0] (by norm_num)]; exact Option.noConfusion⟩

/-- Witness for C3 (amended) at a concrete two-row backtest. -/
theorem backtest_lagged_compounding_witness :
    (strategyList ([1, -1] : List ℤ) ([2, 3] : List ℚ)).getD 0 none = none ∧
    (∀ i, 1 ≤ i → i < ([2, 3] : List ℚ).length →
      (strategyList ([1, -1] : List ℤ) ([2, 3] : List ℚ)).getD i none =
      some ((((([1, -1] : List ℤ)).getD (i - 1) 0 : ℤ) : ℚ) * ([2, 3] : List ℚ).getD i 0)) ∧
    (cumulativeList ([1, -1] : List ℤ) ([2, 3] : List ℚ)).getD 0 none = none ∧
    (∀ i, 1 ≤ i → i < ([2, 3] : List ℚ).length →
      (cumulativeList ([1, -1] : List ℤ) ([2, 3] : List ℚ)).getD i none =
      some (((List.range i).map
        (fun k => 1 + ((([1, -1] : List ℤ).getD k 0 : ℤ) : ℚ) *
          ([2, 3] : List ℚ).getD (k + 1) 0)).prod)) ∧
    (2 ≤ ([2, 3] : List ℚ).length →
      (cumulativeList ([1, -1] : List ℤ) ([2, 3] : List ℚ)).getLast? =
        some (some ((onePlusStrategy ([1, -1] : List ℤ) ([2, 3] : List ℚ)).prod))) :=
  backtest_lagged_compounding [1, -1] [2, 3] (by norm_num)

/-- The z-scored column of the Normalizer: each value minus the column
mean, over the column sample standard deviation. -/
noncomputable def zscoreList (xs : List ℝ) : List ℝ :=
  xs.map (fun x => (x - listMean xs) / sampleStd xs)

/-- The z-scored column with the undefined entries of the source made
explicit: with zero standard deviation each entry of the column is the
undefined 0/0 of the source (every numerator is then itself zero). -/
noncomputable def zscoreListO (xs : List ℝ) : List (Option ℝ) :=
  xs.map (fun x =>
    if sampleStd xs = 0 then none else some ((x - listMean xs) / sampleStd xs))

theorem sum_map_sub (xs : List ℝ) (c : ℝ) :
    (xs.map (fun x => x - c)).sum = xs.sum - (xs.length : ℝ) * c := by
  induction xs with
  | nil => simp
  | cons a t ih =>
      simp only [List.map_cons, List.sum_cons, ih, List.length_cons]
      push_cast
      ring

theorem sum_map_div (xs : List ℝ) (c : ℝ) :
    (xs.map (fun x => x / c)).sum = xs.sum / c := by
  induction xs with
  | nil => simp
  | cons a t ih => simp [ih, add_div]

theorem sum_sub_mean (xs : List ℝ) (h : xs ≠ []) :
    (xs.map (fun x => x - listMean xs)).sum = 0 := by
  rw [sum_map_sub, listMean]
  have hn : (xs.length : ℝ) ≠ 0 := by
    have := List.length_pos.mpr h
    positivity
  field_simp

theorem sum_nonneg_list (xs : List ℝ) (h : ∀ x ∈ xs, 0 ≤ x) : 0 ≤ xs.sum := by
  induction xs with
  | nil => simp
  | cons a t ih =>
      rw [List.sum_cons]
      have ha := h a (List.mem_cons_self a t)
      have ht := ih (fun x hx => h x (List.mem_cons_of_mem a hx))
      linarith

theorem all_zero_of_sum_zero (xs : List ℝ) (h : ∀ x ∈ xs, 0 ≤ x) (hs : xs.sum = 0) :
    ∀ x ∈ xs, x = 0 := by
  induction xs with
  | nil => intro x hx; cases hx
  | cons a t ih =>
      rw [List.sum_cons] at hs
      have ha := h a (List.mem_cons_self a t)
      have ht := sum_nonneg_list t (fun x hx => h x (List.mem_cons_of_mem a hx))
      have ha0 : a = 0 := by linarith
      have hts : t.sum = 0 := by linarith
      intro x hx
      rcases List.mem_cons.mp hx with rfl | hxt
      · exact ha0
      · exact ih (fun y hy => h y (List.mem_cons_of_mem a hy)) hts x hxt

theorem sampleVar_nonneg (xs : List ℝ) (hlen : 2 ≤ xs.length) : 0 ≤ sampleVar xs := by
  rw [sampleVar]
  refine div_nonneg ?_ ?_
  · refine sum_nonneg_list _ ?_
    intro y hy
    rcases List.mem_map.mp hy with ⟨x, _, rfl⟩
    positivity
  · have : (2 : ℝ) ≤ (xs.length : ℝ) := by exact_mod_cast hlen
    linarith

/-- C6: for every column of at least two values, if the sample variance is
not zero the z-scored column has mean exactly 0 and sample standard
deviation exactly 1 and every z-score is defined; if the sample variance
is zero, every value equals the mean (so each z-score of the source is
the undefined 0/0) and every entry of the z-scored column is undefined,
propagating instead of faulting. -/
theorem zscore_normalization (xs : List ℝ) (hlen : 2 ≤ xs.length) :
    (sampleVar xs ≠ 0 → listMean (zscoreList xs) = 0 ∧ sampleStd (zscoreList xs) = 1 ∧
      zscoreListO xs = (zscoreList xs).map some) ∧
    (sampleVar xs = 0 → (∀ x ∈ xs, x = listMean xs) ∧ ∀ o ∈ zscoreListO xs, o = none) := by
  have hne : xs ≠ [] := by
    intro hcon
    rw [hcon] at hlen
    simp at hlen
  have hn_pos : (0 : ℝ) < (xs.length : ℝ) := by
    have : 0 < xs.length := List.length_pos.mpr hne
    exact_mod_cast this
  have hn1_pos : (0 : ℝ) < (xs.length : ℝ) - 1 := by
    have : (2 : ℝ) ≤ (xs.length : ℝ) := by exact_mod_cast hlen
    linarith
  have hvar_nonneg : 0 ≤ sampleVar xs := sampleVar_nonneg xs hlen
  constructor
  · intro hv
    have hstd_pos : 0 < sampleStd xs :=
      Real.sqrt_pos.mpr (lt_of_le_of_ne hvar_nonneg (Ne.symm hv))
    have hstd_ne : sampleStd xs ≠ 0 := ne_of_gt hstd_pos
    have hsq : sampleStd xs ^ 2 = sampleVar xs := Real.sq_sqrt hvar_nonneg
    have hzsum : (zscoreList xs).sum = 0 := by
      rw [zscoreList]
      have hcomp : xs.map (fun x => (x - listMean xs) / sampleStd xs) =
          (xs.map (fun x => x - listMean xs)).map (fun y => y / sampleStd xs) := by
        rw [List.map_map]
        rfl
      rw [hcomp, sum_map_div, sum_sub_mean xs hne, zero_div]
    have hzlen : (zscoreList xs).length = xs.length := by
      rw [zscoreList, List.length_map]
    have hzmean : listMean (zscoreList xs) = 0 := by
      rw [listMean, hzsum, zero_div]
    refine ⟨hzmean, ?_, ?_⟩
    · rw [sampleStd, sampleVar, hzmean, hzlen]
      have hsqsum : ((zscoreList xs).map (fun z => (z - 0) ^ 2)).sum =
          ((xs.length : ℝ) - 1) := by
        rw [zscoreList, List.map_map]
        have hcomp : ((fun z => (z - 0) ^ 2) ∘ fun x => (x - listMean xs) / sampleStd xs) =
            fun x => ((x - listMean xs) ^ 2) / (sampleVar xs) := by
          funext x
          rw [Function.comp_apply, sub_zero, div_pow, hsq]
        rw [hcomp]
        have hcomp2 : (fun x => ((x - listMean xs) ^ 2) / (sampleVar xs)) =
            (fun y => y / sampleVar xs) ∘ (fun x => (x - listMean xs) ^ 2) := rfl
        rw [hcomp2, ← List.map_map, sum_map_div]
        have hvareq : (xs.map (fun x => (x - listMean xs) ^ 2)).sum =
            sampleVar xs * ((xs.length : ℝ) - 1) := by
          rw [sampleVar]
          field_simp
        rw [hvareq]
        field_simp
      rw [hsqsum, div_self (ne_of_gt hn1_pos), Real.sqrt_one]
    · rw [zscoreListO, zscoreList, List.map_map]
      refine List.map_congr_left ?_
      intro x _
      rw [if_neg hstd_ne]
      rfl
  · intro hv
    have hall : ∀ x ∈ xs, x = listMean xs := by
      have hsum0 : (xs.map (fun x => (x - listMean xs) ^ 2)).sum = 0 := by
        have := sampleVar xs
        rw [sampleVar] at hv
        have hnum : (xs.map (fun x => (x - listMean xs) ^ 2)).sum =
            ((xs.length : ℝ) - 1) * 0 := by
          rw [← hv]
          field_simp
        simpa using hnum
      intro x hx
      have hzero := all_zero_of_sum_zero (xs.map (fun x => (x - listMean xs) ^ 2))
        (by
          intro y hy
          rcases List.mem_map.mp hy with ⟨z, _, rfl⟩
          positivity) hsum0
      have hx2 : (x - listMean xs) ^ 2 = 0 :=
        hzero _ (List.mem_map_of_mem (fun x => (x - listMean xs) ^ 2) hx)
      have := pow_eq_zero_iff (n := 2) (by norm_num) |>.mp hx2
      linarith [this]

    refine ⟨hall, ?_⟩
    intro o ho
    rcases List.mem_map.mp ho with ⟨x, _, rfl⟩
    have hstd0 : sampleStd xs = 0 := by
      rw [sampleStd, hv, Real.sqrt_zero]
    rw [if_pos hstd0]

/-- Witness for C6 on the concrete two-value column [0, 2]. -/
theorem zscore_normalization_witness :
    (sampleVar ([0, 2] : List ℝ) ≠ 0 → listMean (zscoreList ([0, 2] : List ℝ)) = 0 ∧
      sampleStd (zscoreList ([0, 2] : List ℝ)) = 1 ∧
      zscoreListO ([0, 2] : List ℝ) = (zscoreList ([0, 2] : List ℝ)).map some) ∧
    (sampleVar ([0, 2] : List ℝ) = 0 →
      (∀ x ∈ ([0, 2] : List ℝ), x = listMean ([0, 2] : List ℝ)) ∧
      ∀ o ∈ zscoreListO ([0, 2] : List ℝ), o = none) :=
  zscore_normalization ([0, 2] : List ℝ) (by norm_num)

/-- AnnualizedReturn of the source: the final cumulative value raised to
the real power 252 / N, minus 1. -/
noncomputable def annualizedReturn (N : ℕ) (V : ℝ) : ℝ := V ^ ((252 : ℝ) / (N : ℝ)) - 1

/-- AnnualizedVolatility of the source: the sample standard deviation of
the defined StrategyReturn entries (the source std skips undefined
entries) times the square root of 252. -/
noncomputable def annualizedVol (srs : List (Option ℝ)) : ℝ :=
  sampleStd (srs.filterMap id) * Real.sqrt 252

/-- SharpeRatio of the source, undefined (NaN) when the annualized
volatility is exactly zero, per the explicit guard of the source. -/
noncomputable def sharpeRatio (aR aV : ℝ) : Option ℝ :=
  if aV = 0 then none else some (aR / aV)

/-- The performance stage applied to the backtest columns: the summary is
undefined when the final cumulative value is undefined or the series is
empty (the empty case is the uncaught indexing fault of the source, the
undefined case its NaN arithmetic). -/
noncomputable def perfSummary (sigs : List ℤ) (rets : List ℝ) : Option (ℝ × ℝ × Option ℝ) :=
  ((cumulativeList sigs rets).getLast?.bind id).map (fun V =>
    (annualizedReturn rets.length V, annualizedVol (strategyList sigs rets),
      sharpeRatio (annualizedReturn rets.length V) (annualizedVol (strategyList sigs rets))))

/-- C8: for every backtested series of at least two rows the final
CumulativeReturn V is a defined value, the evaluator output is exactly
AnnualizedReturn = V ^ (252 / N) - 1 and AnnualizedVolatility = sample
standard deviation of the defined StrategyReturn entries times the
square root of 252, and when the annualized volatility is exactly zero
the Sharpe ratio is reported undefined rather than raising a division
fault, otherwise it is their quotient. -/
theorem performance_metrics (sigs : List ℤ) (rets : List ℝ) (hN : 2 ≤ rets.length) :
    ∃ V : ℝ, (cumulativeList sigs rets).getLast?.bind id = some V ∧
      perfSummary sigs rets = some (annualizedReturn rets.length V,
        annualizedVol (strategyList sigs rets),
        sharpeRatio (annualizedReturn rets.length V)
          (annualizedVol (strategyList sigs rets))) ∧
      annualizedReturn rets.length V = V ^ ((252 : ℝ) / (rets.length : ℝ)) - 1 ∧
      annualizedVol (strategyList sigs rets) =
        sampleStd ((strategyList sigs rets).filterMap id) * Real.sqrt 252 ∧
      (annualizedVol (strategyList sigs rets) = 0 →
        sharpeRatio (annualizedReturn rets.length V)
          (annualizedVol (strategyList sigs rets)) = none) ∧
      (annualizedVol (strategyList sigs rets) ≠ 0 →
        sharpeRatio (annualizedReturn rets.length V)
          (annualizedVol (strategyList sigs rets)) =
          some (annualizedReturn rets.length V / annualizedVol (strategyList sigs rets))) := by
  refine ⟨(onePlusStrategy sigs rets).prod, ?_, ?_, rfl, rfl, ?_, ?_⟩
  · rw [cumulativeList_last sigs rets hN]
    rfl
  · rw [perfSummary, cumulativeList_last sigs rets hN]
    rfl
  · intro hz
    rw [sharpeRatio, if_pos hz]
  · intro hz
    rw [sharpeRatio, if_neg hz]

/-- Witness for C8 at a concrete two-row backtest. -/
theorem performance_metrics_witness :
    ∃ V : ℝ, (cumulativeList ([1, 1] : List ℤ) ([2, 3] : List ℝ)).getLast?.bind id = some V ∧
      perfSummary ([1, 1] : List ℤ) ([2, 3] : List ℝ) =
        some (annualizedReturn ([2, 3] : List ℝ).length V,
          annualizedVol (strategyList ([1, 1] : List ℤ) ([2, 3] : List ℝ)),
          sharpeRatio (annualizedReturn ([2, 3] : List ℝ).length V)
            (annualizedVol (strategyList ([1, 1] : List ℤ) ([2, 3] : List ℝ)))) ∧
      annualizedReturn ([2, 3] : List ℝ).length V =
        V ^ ((252 : ℝ) / (([2, 3] : List ℝ).length : ℝ)) - 1 ∧
      annualizedVol (strategyList ([1, 1] : List ℤ) ([2, 3] : List ℝ)) =
        sampleStd ((strategyList ([1, 1] : List ℤ) ([2, 3] : List ℝ)).filterMap id) *
          Real.sqrt 252 ∧
      (annualizedVol (strategyList ([1, 1] : List ℤ) ([2, 3] : List ℝ)) = 0 →
        sharpeRatio (annualizedReturn ([2, 3] : List ℝ).length V)
          (annualizedVol (strategyList ([1, 1] : List ℤ) ([2, 3] : List ℝ))) = none) ∧
      (annualizedVol (strategyList ([1, 1] : List ℤ) ([2, 3] : List ℝ)) ≠ 0 →
        sharpeRatio (annualizedReturn ([2, 3] : List ℝ).length V)
          (annualizedVol (strategyList ([1, 1] : List ℤ) ([2, 3] : List ℝ))) =
          some (annualizedReturn ([2, 3] : List ℝ).length V /
            annualizedVol (strategyList ([1, 1] : List ℤ) ([2, 3] : List ℝ)))) :=
  performance_metrics ([1, 1] : List ℤ) ([2, 3] : List ℝ) (by norm_num)

/-- Rational reading of a cleaned cell.  The factor stage of this file is
stated over finite (rational) columns; an infinite cell is read as the
junk value 0.  No theorem of this file depends on the reading of an
infinite cell: the only claim settled through this glue concerns inputs
whose cleaned series is shorter than the warm-up window, where every row
is dropped on position alone. -/
def PValue.ratOrZero : PValue → ℚ
  | PValue.fin q => q
  | PValue.posInf => 0
  | PValue.negInf => 0

/-- Price column of the cleaned series. -/
def cleanPrices (raw : List (String × String)) : List ℚ :=
  (cleanSeries raw).map (fun r => r.1.ratOrZero)

/-- Volume column of the cleaned series. -/
def cleanVolumes (raw : List (String × String)) : List ℚ :=
  (cleanSeries raw).map (fun r => r.2.ratOrZero)

/-- Rows of the full pipeline surviving the factor-stage dropna. -/
noncomputable def pipelineKept (raw : List (String × String)) : List ℕ :=
  keptIndices (cleanPrices raw) (cleanVolumes raw)

/-- Momentum column of the surviving rows. -/
noncomputable def pipelineMomentum (raw : List (String × String)) : List ℝ :=
  (pipelineKept raw).map (fun i => (((momentumAt (cleanPrices raw) i).getD 0 : ℚ) : ℝ))

/-- Returns column of the surviving rows. -/
noncomputable def pipelineReturns (raw : List (String × String)) : List ℝ :=
  (pipelineKept raw).map (fun i => (((returnsAt (cleanPrices raw) i).getD 0 : ℚ) : ℝ))

/-- Volatility column of the surviving rows. -/
noncomputable def pipelineVolatility (raw : List (String × String)) : List ℝ :=
  (pipelineKept raw).map (fun i => (volatilityAt (cleanPrices raw) i).getD 0)

/-- VolumeFactor column of the surviving rows. -/
noncomputable def pipelineVolumeFactor (raw : List (String × String)) : List ℝ :=
  (pipelineKept raw).map (fun i => (((volumeFactorAt (cleanVolumes raw) i).getD 0 : ℚ) : ℝ))

/-- Winsorize then z-score one factor column, as the source does to
Momentum, Volatility and VolumeFactor. -/
noncomputable def pipelineZ (col : List ℝ) : List (Option ℝ) := zscoreListO (winsorize col)

/-- The composite MFT score column: the row-wise mean of the three
z-scored factors, undefined where any of them is undefined. -/
noncomputable def pipelineScores (raw : List (String × String)) : List (Option ℝ) :=
  (((pipelineZ (pipelineMomentum raw)).zip (pipelineZ (pipelineVolatility raw))).zip
    (pipelineZ (pipelineVolumeFactor raw))).map (fun p =>
      p.1.1.bind (fun a => p.1.2.bind (fun b => p.2.map (fun c => (a + b + c) / 3))))

/-- The Signal column of the full pipeline. -/
noncomputable def pipelineSignals (raw : List (String × String)) : List ℤ :=
  signalCol (pipelineScores raw)

/-- The full pipeline summary: the performance stage on the backtest of
the pipeline signals against the pipeline returns; `none` models the
source faulting (indexing an empty column) or producing only undefined
metrics. -/
noncomputable def pipelineSummary (raw : List (String × String)) : Option (ℝ × ℝ × Option ℝ) :=
  perfSummary (pipelineSignals raw) (pipelineReturns raw)

/-- C2: on every input whose cleaned series has fewer than 21 rows, every
factor row is dropped, so the final cumulative value the evaluator reads
does not exist and the pipeline summary is undefined: the source raises
an uncaught index-out-of-range fault at that read instead of reporting an
InsufficientDataError as the claim requires. -/
theorem insufficient_data_fault (raw : List (String × String))
    (hlen : (cleanSeries raw).length < 21) : pipelineSummary raw = none := by
  have hplen : (cleanPrices raw).length < 21 := by
    rw [cleanPrices, List.length_map]
    exact hlen
  have hkept : pipelineKept raw = [] := by
    rw [pipelineKept, keptIndices]
    refine List.filter_eq_nil_iff.mpr ?_
    intro i hi
    have hilt : i < (cleanPrices raw).length := List.mem_range.mp hi
    have hmom : momentumAt (cleanPrices raw) i = none :=
      pctChangeAt_eq_none_of_lt (cleanPrices raw) 20 i (by omega)
    simp [hmom]
  have hrets : pipelineReturns raw = [] := by
    rw [pipelineReturns, hkept]
    rfl
  rw [pipelineSummary, hrets]
  rfl

/-- Concrete five-row input for the C2 witness. -/
def shortRaw : List (String × String) :=
  [("100", "1000"), ("101", "1000"), ("102", "1000"), ("103", "1000"), ("104", "1000")]

/-- Witness for C2: five valid rows clean to five rows, fewer than 21, and
the pipeline summary is the undefined value modelling the fault. -/
theorem insufficient_data_fault_witness : pipelineSummary shortRaw = none :=
  insufficient_data_fault shortRaw (by decide)

end MFTApp
